import Mathlib

/-!
# Verification of the `bucketlib::bucket` hierarchical partial-sum structure

A shallow embedding of `include/bucket/bucket.hpp`: the structure partitions a
flat numeric sequence into `ROWS` logical rows of `COLS` entries, caches per-row
sums (`_p_sums`) and a length-`ROWS+1` cumulative array (`_p_cum_sums`), tracks a
dirty row range (`_min_row_affected`, `_max_row_affected`), and answers
inverse-CDF style threshold queries (`find_upper_bound`).

Numeric values are modelled as rationals (exact arithmetic over the generic
arithmetic element type).  The backing container is modelled as the flat memory
the iterators read, one value per index: the class only ever accesses it through
`begin() + offset`, never through its `size()` (the size appears only in the
constructor's `assert`), so a total function `ℕ → ℚ` captures every read the
code performs — including the reads past the container's end that occur when the
container is shorter than `ROWS*COLS`.
-/

/-- State of a `bucketlib::bucket`: members `_ROWS`, `_COLS`,
`_min_row_affected`, `_max_row_affected`, the referenced backing container
`_vector` (as the flat memory read through its iterators), `_p_sums`, and
`_p_cum_sums`. -/
structure Bucket where
  ROWS : ℕ
  COLS : ℕ
  minRow : ℕ
  maxRow : ℕ
  vec : ℕ → ℚ
  sums : ℕ → ℚ
  cum : ℕ → ℚ

/-- Sum of the `n` backing values starting at index `a` (an iterator walk
`std::accumulate(begin + a, begin + a + n, 0)`). -/
def chunkSum (v : ℕ → ℚ) (a n : ℕ) : ℚ :=
  ((List.range n).map (fun c => v (a + c))).sum

/-- The row-slice sum computed by `update_sum_at_row`:
`std::accumulate(_vector.begin() + row * _COLS, … + _COLS, 0)`. -/
def rowSum (v : ℕ → ℚ) (COLS row : ℕ) : ℚ :=
  chunkSum v (row * COLS) COLS

/-- Exclusive prefix sum of the first `m` backing values (used both to state
facts about the code and, below, as the spec's full prefix-sum reference). -/
def preSum (v : ℕ → ℚ) (m : ℕ) : ℚ :=
  ((List.range m).map v).sum

/-- `bucket::update_sum_at_row` without the `ROW_CHECK` (its body): recompute
one row sum and widen the affected-row range
(`if (row < _min_row_affected) _min_row_affected = row;` and symmetrically). -/
def update_sum_at_row (b : Bucket) (row : ℕ) : Bucket :=
  { b with
    sums := Function.update b.sums row (rowSum b.vec b.COLS row)
    minRow := min b.minRow row
    maxRow := max b.maxRow row }

/-- The cumulative-sum loop shared by `update_cumsum` and the first loop of
`refresh_cumsum`: starting at `start`, run `n` iterations of the in-place
statement `_p_cum_sums[l + 1] = _p_cum_sums[l] + _p_sums[l]`. -/
def cumLoop (s : ℕ → ℚ) (c : ℕ → ℚ) (start : ℕ) : ℕ → (ℕ → ℚ)
  | 0 => c
  | n + 1 => cumLoop s (Function.update c (start + 1) (c start + s start)) (start + 1) n

/-- The second loop of `refresh_cumsum`: from `start`, run `n` iterations of the
in-place statement `_p_cum_sums[l + 1] -= diff`. -/
def shiftLoop (diff : ℚ) (c : ℕ → ℚ) (start : ℕ) : ℕ → (ℕ → ℚ)
  | 0 => c
  | n + 1 => shiftLoop diff (Function.update c (start + 1) (c (start + 1) - diff)) (start + 1) n

/-- `bucket::update_cumsum`: `_p_cum_sums[0] = 0`, the full prefix loop over all
`ROWS` rows, then reset the affected-row range to the sentinel `(ROWS, 0)`. -/
def update_cumsum (b : Bucket) : Bucket :=
  { b with
    cum := cumLoop b.sums (Function.update b.cum 0 0) 0 b.ROWS
    minRow := b.ROWS
    maxRow := 0 }

/-- `bucket::refresh_cumsum`: remember `diff = _p_cum_sums[_max_row_affected + 1]`,
re-run the prefix loop on rows `_min_row_affected … _max_row_affected`, subtract
the new boundary value from `diff`, shift every later entry down by `diff`
(the loop variable `l_row` resumes at `max (_min_row_affected) (_max_row_affected + 1)`),
then reset the affected-row range to the sentinel. -/
def refresh_cumsum (b : Bucket) : Bucket :=
  let diff0 := b.cum (b.maxRow + 1)
  let c1 := cumLoop b.sums b.cum b.minRow (b.maxRow + 1 - b.minRow)
  let diff := diff0 - c1 (b.maxRow + 1)
  let lrow := max b.minRow (b.maxRow + 1)
  { b with
    cum := shiftLoop diff c1 lrow (b.ROWS - lrow)
    minRow := b.ROWS
    maxRow := 0 }

/-- The `bucket` constructor: size the cached arrays (value-initialised to 0),
run `update_sum()` (which is `update_sum_at_row` on every row) and
`update_cumsum()`, then set the affected-row sentinel `(ROWS, 0)`.  In the C++
the two range members are uninitialised while `update_sum()` runs and are
overwritten afterwards, so their initial value here is irrelevant; the sentinel
values are used. -/
def mkBucket (ROWS COLS : ℕ) (v : ℕ → ℚ) : Bucket :=
  let b0 : Bucket := ⟨ROWS, COLS, ROWS, 0, v, fun _ => 0, fun _ => 0⟩
  let b1 := (List.range ROWS).foldl update_sum_at_row b0
  let b2 := update_cumsum b1
  { b2 with minRow := ROWS, maxRow := 0 }

/-- The final linear scan of `find_upper_bound`: starting with `temp` at `idx`,
repeat `COLS` times: `temp += *begin; if (temp >= val) return index;`, and fall
through to `NOT_FOUND` (modelled as `none`). -/
def scanRow (v : ℕ → ℚ) (val : ℚ) : ℕ → ℕ → ℚ → Option ℕ
  | 0, _, _ => none
  | fuel + 1, idx, temp =>
    let t := temp + v idx
    if val ≤ t then some idx else scanRow v val fuel (idx + 1) t

/-- `std::upper_bound` over the length-`len` array `c`: the index of the first
entry strictly greater than `val`, or `len` when there is none (the behaviour
`std::upper_bound` guarantees on the partitioned ranges it requires). -/
def upperBoundIdx (c : ℕ → ℚ) (len : ℕ) (val : ℚ) : ℕ :=
  (List.range len).findIdx (fun k => decide (val < c k))

/-- The row the binary search of `find_upper_bound` selects:
`std::distance(begin, std::upper_bound(…)) - 1` over `_p_cum_sums`
(length `ROWS + 1`). -/
def queryRow (b : Bucket) (val : ℚ) : ℕ :=
  upperBoundIdx b.cum (b.ROWS + 1) val - 1

/-- `bucket::find_upper_bound` without the `VAL_CHECK`s: binary search for the
row, then the in-row linear scan starting from `index = row_index * _COLS` and
`temp = _p_cum_sums[row_index]`.  `NOT_FOUND` is modelled as `none`. -/
def fub_core (b : Bucket) (val : ℚ) : Option ℕ :=
  scanRow b.vec val b.COLS (queryRow b val * b.COLS) (b.cum (queryRow b val))

/-- Message of the `ROW_CHECK` in `update_sum_at_row`. -/
def rowErrMsg : String := "Row index out of range"

/-- Message of the first `VAL_CHECK` in `find_upper_bound`. -/
def lowErrMsg : String :=
  "In upper limit, the value passed is smaller than the first element"

/-- Message of the second `VAL_CHECK` in `find_upper_bound`. -/
def highErrMsg : String :=
  "In upper limit, the value passed is bigger or equal to the last element"

/-- `bucket::find_upper_bound` compiled with `ENABLE_CHECKS`: each `VAL_CHECK`
throws `std::runtime_error(msg)` before anything else runs.  The method is
modelled as a state transformer (its members are `mutable`, so the pair records
the state the call leaves behind); the two checks and the query body assign to
no member, so every branch leaves the entry state. -/
def find_upper_bound (b : Bucket) (val : ℚ) : Except String (Option ℕ) × Bucket :=
  if ¬ 0 < val then (Except.error lowErrMsg, b)
  else if ¬ val < b.cum b.ROWS then (Except.error highErrMsg, b)
  else (Except.ok (fub_core b val), b)

/-- `bucket::update_sum_at_row` compiled with `ENABLE_CHECKS`: `ROW_CHECK` is the
first statement, so a failing check throws before any member is assigned. -/
def update_sum_at_row_checked (b : Bucket) (row : ℕ) : Except String Unit × Bucket :=
  if ¬ row < b.ROWS then (Except.error rowErrMsg, b)
  else (Except.ok (), update_sum_at_row b row)

/-- The memory an iterator walk over a container with contents `data` reads:
in-bounds indices read the element, out-of-bounds indices read whatever
unspecified memory `junk` lies past the container's end (which is what the C++
reads when `data.length < ROWS * COLS`). -/
def memOf (data : List ℚ) (junk : ℕ → ℚ) : ℕ → ℚ :=
  fun i => if i < data.length then data.getD i 0 else junk i

/-- Reference query, taken from the spec's words: compute the full inclusive
prefix-sum array over the `n` backing values and return the first index whose
inclusive prefix reaches `val`. -/
def naiveFub (v : ℕ → ℚ) (n : ℕ) (val : ℚ) : Option ℕ :=
  (List.range n).find? (fun i => decide (val ≤ preSum v (i + 1)))

/-- An operation of the caller-driven mutate → update-row → refresh → query
cycle: an external write into the backing memory, a (checked) row update, or one
of the two refreshes. -/
inductive Op where
  | updateRow (row : ℕ)
  | writeVec (i : ℕ) (x : ℚ)
  | fullRefresh
  | incRefresh

/-- One step of the operation cycle (a rejected checked row update leaves the
state unchanged). -/
def stepOp (b : Bucket) : Op → Bucket
  | Op.updateRow row => (update_sum_at_row_checked b row).2
  | Op.writeVec i x => { b with vec := Function.update b.vec i x }
  | Op.fullRefresh => update_cumsum b
  | Op.incRefresh => refresh_cumsum b

/-- Run a list of operations left to right. -/
def runOps (b : Bucket) (ops : List Op) : Bucket :=
  ops.foldl stepOp b

/-- Every cached row sum matches the backing memory. -/
def ConsistentSums (b : Bucket) : Prop :=
  ∀ r, r < b.ROWS → b.sums r = rowSum b.vec b.COLS r

/-- Every cached cumulative entry matches the prefix sums of the row sums. -/
def ConsistentCum (b : Bucket) : Prop :=
  ∀ k, k ≤ b.ROWS → b.cum k = preSum b.sums k

/-- The backing values inside the `ROWS * COLS` grid are non-negative. -/
def NonnegBacking (b : Bucket) : Prop :=
  ∀ i, i < b.ROWS * b.COLS → 0 ≤ b.vec i

/-- The affected-row range holds the clean sentinel `(ROWS, 0)`. -/
def SentinelRange (b : Bucket) : Prop :=
  b.minRow = b.ROWS ∧ b.maxRow = 0

/-- The affected-row range is either the clean sentinel or a well-formed
non-empty range. -/
def DirtyRangeOK (b : Bucket) : Prop :=
  SentinelRange b ∨ (b.minRow ≤ b.maxRow ∧ b.maxRow < b.ROWS)

/-- The cumulative array is the prefix array of some snapshot `s0` of the row
sums that agrees with the current row sums outside the affected-row range, and
the range is well formed.  This is the precondition `refresh_cumsum` relies on. -/
def DirtyInv (b : Bucket) : Prop :=
  ∃ s0 : ℕ → ℚ,
    (∀ k, k ≤ b.ROWS → b.cum k = preSum s0 k) ∧
    (∀ r, r < b.ROWS → (r < b.minRow ∨ b.maxRow < r) → b.sums r = s0 r) ∧
    DirtyRangeOK b

instance (b : Bucket) : Decidable (ConsistentSums b) :=
  decidable_of_iff (∀ r, r < b.ROWS → b.sums r = rowSum b.vec b.COLS r) Iff.rfl

instance (b : Bucket) : Decidable (ConsistentCum b) :=
  decidable_of_iff (∀ k, k ≤ b.ROWS → b.cum k = preSum b.sums k) Iff.rfl

instance (b : Bucket) : Decidable (NonnegBacking b) :=
  decidable_of_iff (∀ i, i < b.ROWS * b.COLS → 0 ≤ b.vec i) Iff.rfl

instance (b : Bucket) : Decidable (SentinelRange b) :=
  decidable_of_iff (b.minRow = b.ROWS ∧ b.maxRow = 0) Iff.rfl

/-- The instance of the repository's `testA.cpp`:
`bucket<std::vector<double>> b(3, 3, {0.1, …, 0.9})`, in exact arithmetic. -/
def bTest : Bucket :=
  mkBucket 3 3 (memOf [0.1, 0.2, 0.3, 0.4, 0.5, 0.6, 0.7, 0.8, 0.9] (fun _ => 0))

/-! ## Prefix-sum arithmetic -/

theorem preSum_zero (v : ℕ → ℚ) : preSum v 0 = 0 := rfl

theorem preSum_succ (v : ℕ → ℚ) (m : ℕ) : preSum v (m + 1) = preSum v m + v m := by
  simp [preSum, List.range_succ]

theorem chunkSum_zero (v : ℕ → ℚ) (a : ℕ) : chunkSum v a 0 = 0 := rfl

theorem chunkSum_succ (v : ℕ → ℚ) (a n : ℕ) :
    chunkSum v a (n + 1) = chunkSum v a n + v (a + n) := by
  simp [chunkSum, List.range_succ]

theorem preSum_add_chunk (v : ℕ → ℚ) (a n : ℕ) :
    preSum v (a + n) = preSum v a + chunkSum v a n := by
  induction n with
  | zero => simp [chunkSum_zero]
  | succ n ih =>
    rw [← Nat.add_assoc, preSum_succ, ih, chunkSum_succ]
    ring

theorem chunkSum_congr (v w : ℕ → ℚ) (a n : ℕ) (h : ∀ c, c < n → v (a + c) = w (a + c)) :
    chunkSum v a n = chunkSum w a n := by
  induction n with
  | zero => rfl
  | succ n ih =>
    rw [chunkSum_succ, chunkSum_succ, ih (fun c hc => h c (by omega)), h n (by omega)]

theorem preSum_congr (v w : ℕ → ℚ) (m : ℕ) (h : ∀ i, i < m → v i = w i) :
    preSum v m = preSum w m := by
  induction m with
  | zero => rfl
  | succ m ih =>
    rw [preSum_succ, preSum_succ, ih (fun i hi => h i (by omega)), h m (by omega)]

theorem preSum_mono (v : ℕ → ℚ) (n : ℕ) (hv : ∀ i, i < n → 0 ≤ v i) :
    ∀ a b, a ≤ b → b ≤ n → preSum v a ≤ preSum v b := by
  intro a b hab hbn
  induction b, hab using Nat.le_induction with
  | base => exact le_refl _
  | succ b hb ih =>
    have h1 : preSum v a ≤ preSum v b := ih (by omega)
    have h2 : 0 ≤ v b := hv b (by omega)
    rw [preSum_succ]
    linarith

theorem preSum_const_zero (m : ℕ) : preSum (fun _ => (0 : ℚ)) m = 0 := by
  induction m with
  | zero => rfl
  | succ m ih => rw [preSum_succ, ih]; ring

theorem chunkSum_eq_finset (v : ℕ → ℚ) (a n : ℕ) :
    chunkSum v a n = Finset.sum (Finset.range n) (fun c => v (a + c)) := by
  induction n with
  | zero => rfl
  | succ n ih => rw [chunkSum_succ, Finset.sum_range_succ, ih]

/-- Consistent row sums turn prefix sums of `RowSums` into prefix sums of the
backing values at row boundaries. -/
theorem preSum_vec_of_sums (R C : ℕ) (s v : ℕ → ℚ) (hs : ∀ r, r < R → s r = rowSum v C r) :
    ∀ k, k ≤ R → preSum s k = preSum v (k * C) := by
  intro k
  induction k with
  | zero => intro _; simp [preSum_zero]
  | succ k ih =>
    intro hk
    rw [preSum_succ, ih (by omega), hs k (by omega), Nat.succ_mul, preSum_add_chunk]
    rfl

/-! ## The two cumulative loops -/

theorem cumLoop_le (s : ℕ → ℚ) :
    ∀ (n start : ℕ) (c : ℕ → ℚ) (k : ℕ), k ≤ start → cumLoop s c start n k = c k := by
  intro n
  induction n with
  | zero => intro start c k _; rfl
  | succ n ih =>
    intro start c k hk
    simp only [cumLoop]
    rw [ih (start + 1) _ k (by omega), Function.update_noteq (by omega)]

theorem cumLoop_gt (s : ℕ → ℚ) :
    ∀ (n start : ℕ) (c : ℕ → ℚ) (k : ℕ), start + n < k → cumLoop s c start n k = c k := by
  intro n
  induction n with
  | zero => intro start c k _; rfl
  | succ n ih =>
    intro start c k hk
    simp only [cumLoop]
    rw [ih (start + 1) _ k (by omega), Function.update_noteq (by omega)]

theorem cumLoop_spec (s : ℕ → ℚ) :
    ∀ (n start : ℕ) (c : ℕ → ℚ) (k : ℕ), start < k → k ≤ start + n →
      cumLoop s c start n k = c start + (preSum s k - preSum s start) := by
  intro n
  induction n with
  | zero => intro start c k h1 h2; omega
  | succ n ih =>
    intro start c k h1 h2
    simp only [cumLoop]
    by_cases hk : k = start + 1
    · subst hk
      rw [cumLoop_le s n (start + 1) _ (start + 1) (le_refl _), Function.update_same,
        preSum_succ]
      ring
    · rw [ih (start + 1) _ k (by omega) (by omega), Function.update_same, preSum_succ]
      ring

theorem shiftLoop_le (d : ℚ) :
    ∀ (n start : ℕ) (c : ℕ → ℚ) (k : ℕ), k ≤ start → shiftLoop d c start n k = c k := by
  intro n
  induction n with
  | zero => intro start c k _; rfl
  | succ n ih =>
    intro start c k hk
    simp only [shiftLoop]
    rw [ih (start + 1) _ k (by omega), Function.update_noteq (by omega)]

theorem shiftLoop_in (d : ℚ) :
    ∀ (n start : ℕ) (c : ℕ → ℚ) (k : ℕ), start < k → k ≤ start + n →
      shiftLoop d c start n k = c k - d := by
  intro n
  induction n with
  | zero => intro start c k h1 h2; omega
  | succ n ih =>
    intro start c k h1 h2
    simp only [shiftLoop]
    by_cases hk : k = start + 1
    · subst hk
      rw [shiftLoop_le d n (start + 1) _ (start + 1) (le_refl _), Function.update_same]
    · rw [ih (start + 1) _ k (by omega) (by omega), Function.update_noteq (by omega)]

/-! ## `update_cumsum` -/

theorem update_cumsum_cum_of_le (b : Bucket) (k : ℕ) (hk : k ≤ b.ROWS) :
    (update_cumsum b).cum k = preSum b.sums k := by
  show cumLoop b.sums (Function.update b.cum 0 0) 0 b.ROWS k = preSum b.sums k
  cases k with
  | zero =>
    rw [cumLoop_le b.sums b.ROWS 0 _ 0 (le_refl _), Function.update_same, preSum_zero]
  | succ k =>
    rw [cumLoop_spec b.sums b.ROWS 0 _ (k + 1) (by omega) (by omega), Function.update_same,
      preSum_zero]
    ring

theorem update_cumsum_cum_of_gt (b : Bucket) (k : ℕ) (hk : b.ROWS < k) :
    (update_cumsum b).cum k = b.cum k := by
  show cumLoop b.sums (Function.update b.cum 0 0) 0 b.ROWS k = b.cum k
  rw [cumLoop_gt b.sums b.ROWS 0 _ k (by omega), Function.update_noteq (by omega)]

/-! ## `refresh_cumsum` -/

/-- The incremental refresh recomputes exactly the prefix sums of the current
row sums, provided the cumulative array was a prefix array of a snapshot that
agrees with the current row sums outside the dirty range. -/
theorem refresh_cumsum_cum (b : Bucket) (h : DirtyInv b) :
    ∀ k, k ≤ b.ROWS → (refresh_cumsum b).cum k = preSum b.sums k := by
  obtain ⟨s0, hcum, hagree, hok⟩ := h
  have hpre : ∀ k, k ≤ b.ROWS → k ≤ b.minRow → b.cum k = preSum b.sums k := by
    intro k h1 h2
    rw [hcum k h1]
    exact preSum_congr s0 b.sums k (fun i hi => (hagree i (by omega) (Or.inl (by omega))).symm)
  intro k hk
  show shiftLoop _ (cumLoop b.sums b.cum b.minRow (b.maxRow + 1 - b.minRow))
      (max b.minRow (b.maxRow + 1)) (b.ROWS - max b.minRow (b.maxRow + 1)) k
    = preSum b.sums k
  rcases hok with ⟨hmin, hmax⟩ | ⟨hmm, hmR⟩
  · -- clean sentinel: both loops run zero iterations on the entries `k ≤ ROWS`
    rcases Nat.eq_zero_or_pos b.ROWS with hR | hR
    · have hk0 : k = 0 := by omega
      subst hk0
      rw [shiftLoop_le _ _ _ _ 0 (by omega), cumLoop_le _ _ _ _ 0 (by omega)]
      exact hpre 0 (by omega) (by omega)
    · have h1 : b.maxRow + 1 - b.minRow = 0 := by omega
      have h2 : max b.minRow (b.maxRow + 1) = b.ROWS := by omega
      rw [h1, h2, Nat.sub_self]
      show cumLoop b.sums b.cum b.minRow 0 k = preSum b.sums k
      exact hpre k hk (by omega)
  · -- genuinely dirty range `minRow ≤ maxRow < ROWS`
    have hlrow : max b.minRow (b.maxRow + 1) = b.maxRow + 1 := by omega
    rw [hlrow]
    have hc1 : ∀ j, j ≤ b.maxRow + 1 →
        cumLoop b.sums b.cum b.minRow (b.maxRow + 1 - b.minRow) j = preSum b.sums j := by
      intro j hj
      rcases Nat.lt_or_ge b.minRow j with hlt | hle
      · rw [cumLoop_spec b.sums _ _ _ j hlt (by omega), hpre b.minRow (by omega) (le_refl _)]
        ring
      · rw [cumLoop_le b.sums _ _ _ j hle]
        exact hpre j (by omega) hle
    rcases Nat.lt_or_ge (b.maxRow + 1) k with hklt | hkle
    · -- tail entries: shifted down by `diff`
      rw [shiftLoop_in _ _ _ _ k hklt (by omega)]
      rw [cumLoop_gt b.sums _ _ _ k (by omega)]
      rw [hc1 (b.maxRow + 1) (le_refl _)]
      rw [hcum k hk, hcum (b.maxRow + 1) (by omega)]
      obtain ⟨d, rfl⟩ : ∃ d, k = (b.maxRow + 1) + d := ⟨k - (b.maxRow + 1), by omega⟩
      rw [preSum_add_chunk s0 (b.maxRow + 1) d, preSum_add_chunk b.sums (b.maxRow + 1) d]
      rw [chunkSum_congr s0 b.sums (b.maxRow + 1) d
        (fun c hc => (hagree (b.maxRow + 1 + c) (by omega) (Or.inr (by omega))).symm)]
      ring
    · -- entries up to the dirty boundary: recomputed by the first loop
      rw [shiftLoop_le _ _ _ _ k hkle]
      exact hc1 k hkle

/-! ## Invariant preservation along operation sequences -/

theorem dirtyRangeOK_update (b : Bucket) (row : ℕ) (h : DirtyRangeOK b)
    (hrow : row < b.ROWS) : DirtyRangeOK (update_sum_at_row b row) := by
  rcases h with ⟨h1, h2⟩ | ⟨h1, h2⟩ <;>
    (right; simp only [update_sum_at_row]; omega)

theorem dirtyRangeOK_step (b : Bucket) (op : Op) (h : DirtyRangeOK b) :
    DirtyRangeOK (stepOp b op) := by
  cases op with
  | updateRow row =>
    show DirtyRangeOK (update_sum_at_row_checked b row).2
    unfold update_sum_at_row_checked
    split
    · exact h
    · rename_i hrow
      exact dirtyRangeOK_update b row h (by omega)
  | writeVec i x =>
    rcases h with ⟨h1, h2⟩ | ⟨h1, h2⟩
    · exact Or.inl ⟨h1, h2⟩
    · exact Or.inr ⟨h1, h2⟩
  | fullRefresh => exact Or.inl ⟨rfl, rfl⟩
  | incRefresh => exact Or.inl ⟨rfl, rfl⟩

theorem dirtyRangeOK_runOps (b : Bucket) (ops : List Op) (h : DirtyRangeOK b) :
    DirtyRangeOK (runOps b ops) := by
  induction ops generalizing b with
  | nil => exact h
  | cons op ops ih => exact ih (stepOp b op) (dirtyRangeOK_step b op h)

theorem dirtyInv_step (b : Bucket) (op : Op) (h : DirtyInv b) : DirtyInv (stepOp b op) := by
  cases op with
  | updateRow row =>
    show DirtyInv (update_sum_at_row_checked b row).2
    unfold update_sum_at_row_checked
    split
    · exact h
    · rename_i hrow
      obtain ⟨s0, hcum, hagree, hok⟩ := h
      refine ⟨s0, hcum, ?_, dirtyRangeOK_update b row hok (by omega)⟩
      intro r hr hout
      simp only [update_sum_at_row] at hout hr ⊢
      have hne : r ≠ row := by omega
      rw [Function.update_noteq hne]
      exact hagree r hr (by omega)
  | writeVec i x =>
    obtain ⟨s0, hcum, hagree, hok⟩ := h
    exact ⟨s0, hcum, hagree, dirtyRangeOK_step b (Op.writeVec i x) hok⟩
  | fullRefresh =>
    exact ⟨b.sums, fun k hk => update_cumsum_cum_of_le b k hk, fun _ _ _ => rfl,
      Or.inl ⟨rfl, rfl⟩⟩
  | incRefresh =>
    exact ⟨b.sums, fun k hk => refresh_cumsum_cum b h k hk, fun _ _ _ => rfl,
      Or.inl ⟨rfl, rfl⟩⟩

theorem dirtyInv_runOps (b : Bucket) (ops : List Op) (h : DirtyInv b) :
    DirtyInv (runOps b ops) := by
  induction ops generalizing b with
  | nil => exact h
  | cons op ops ih => exact ih (stepOp b op) (dirtyInv_step b op h)

theorem stepOp_ROWS (b : Bucket) (op : Op) : (stepOp b op).ROWS = b.ROWS := by
  cases op with
  | updateRow row =>
    show (update_sum_at_row_checked b row).2.ROWS = b.ROWS
    unfold update_sum_at_row_checked
    split <;> rfl
  | writeVec i x => rfl
  | fullRefresh => rfl
  | incRefresh => rfl

theorem runOps_ROWS (b : Bucket) (ops : List Op) : (runOps b ops).ROWS = b.ROWS := by
  induction ops generalizing b with
  | nil => rfl
  | cons op ops ih => exact (ih (stepOp b op)).trans (stepOp_ROWS b op)

/-! ## The binary search (`std::upper_bound`) -/

theorem upperBoundIdx_le (c : ℕ → ℚ) (len : ℕ) (val : ℚ) :
    upperBoundIdx c len val ≤ len := by
  have hle : (List.range len).findIdx (fun k => decide (val < c k)) ≤
      (List.range len).length :=
    List.findIdx_le_length _
  simpa [upperBoundIdx] using hle

theorem upperBoundIdx_lt (c : ℕ → ℚ) (len : ℕ) (val : ℚ) (m : ℕ) (hm : m < len)
    (h : val < c m) : upperBoundIdx c len val < len := by
  have hfound : (List.range len).findIdx (fun k => decide (val < c k)) <
      (List.range len).length :=
    List.findIdx_lt_length_of_exists ⟨m, List.mem_range.mpr hm, by simpa using h⟩
  simpa [upperBoundIdx] using hfound

theorem lt_cum_upperBoundIdx (c : ℕ → ℚ) (len : ℕ) (val : ℚ)
    (h : upperBoundIdx c len val < len) : val < c (upperBoundIdx c len val) := by
  have hlen : (List.range len).findIdx (fun k => decide (val < c k)) <
      (List.range len).length := by simpa [upperBoundIdx] using h
  have hget := List.findIdx_getElem (w := hlen)
  simpa [upperBoundIdx, List.getElem_range] using hget

theorem not_lt_of_lt_upperBoundIdx (c : ℕ → ℚ) (len : ℕ) (val : ℚ) (k : ℕ)
    (h : k < upperBoundIdx c len val) : ¬ val < c k := by
  have hfalse := List.not_of_lt_findIdx
    (show k < (List.range len).findIdx (fun j => decide (val < c j)) by
      simpa [upperBoundIdx] using h)
  simpa [List.getElem_range] using hfalse

theorem upperBoundIdx_mono (c : ℕ → ℚ) (len : ℕ) (t1 t2 : ℚ) (h : t1 ≤ t2) :
    upperBoundIdx c len t1 ≤ upperBoundIdx c len t2 := by
  by_contra hlt
  push_neg at hlt
  have h2len : upperBoundIdx c len t2 < len :=
    lt_of_lt_of_le hlt (upperBoundIdx_le c len t1)
  have ha : t2 < c (upperBoundIdx c len t2) := lt_cum_upperBoundIdx c len t2 h2len
  have hb : ¬ t1 < c (upperBoundIdx c len t2) :=
    not_lt_of_lt_upperBoundIdx c len t1 _ hlt
  push_neg at hb
  linarith

/-! ## The in-row scan -/

theorem scanRow_eq_some (v : ℕ → ℚ) (val : ℚ) :
    ∀ (fuel idx : ℕ) (temp : ℚ), temp = preSum v idx →
      ∀ m, idx ≤ m → m < idx + fuel → val ≤ preSum v (m + 1) →
        (∀ i, idx ≤ i → i < m → preSum v (i + 1) < val) →
        scanRow v val fuel idx temp = some m := by
  intro fuel
  induction fuel with
  | zero => intro idx temp _ m h1 h2 _ _; omega
  | succ fuel ih =>
    intro idx temp htemp m h1 h2 hval hmin
    simp only [scanRow]
    have ht : temp + v idx = preSum v (idx + 1) := by rw [htemp, preSum_succ]
    by_cases hc : val ≤ temp + v idx
    · rw [if_pos hc]
      have hm : m = idx := by
        by_contra hne
        have h3 : idx < m := by omega
        have h4 := hmin idx (le_refl _) h3
        rw [← ht] at h4
        linarith
      rw [hm]
    · rw [if_neg hc]
      have hm : idx + 1 ≤ m := by
        rcases Nat.eq_or_lt_of_le h1 with he | hl
        · exfalso
          rw [← he, ← ht] at hval
          exact hc hval
        · omega
      exact ih (idx + 1) (temp + v idx) ht m hm (by omega) hval
        (fun i hi1 hi2 => hmin i (by omega) hi2)

/-! ## `List.find?` over an initial segment of `ℕ` -/

theorem find?_range_eq_some :
    ∀ (n : ℕ) (p : ℕ → Bool) (m : ℕ), m < n → p m = true → (∀ i, i < m → p i = false) →
      (List.range n).find? p = some m := by
  intro n
  induction n with
  | zero => intro p m hm _ _; omega
  | succ n ih =>
    intro p m hm hpm hmin
    rw [List.range_succ_eq_map]
    by_cases h0 : m = 0
    · subst h0
      rw [List.find?_cons_of_pos _ hpm]
    · have hp0 : p 0 = false := hmin 0 (by omega)
      rw [List.find?_cons_of_neg _ (by simp [hp0])]
      rw [List.find?_map]
      have hrw : Nat.succ (m - 1) = m := by omega
      have hmain : (List.range n).find? (p ∘ Nat.succ) = some (m - 1) := by
        apply ih (p ∘ Nat.succ) (m - 1) (by omega)
        · simpa [Function.comp, Nat.sub_add_cancel (show 1 ≤ m by omega)] using hpm
        · intro i hi
          simpa [Function.comp] using hmin (i + 1) (by omega)
      rw [hmain]
      simp only [Option.map_some']
      rw [show Nat.succ (m - 1) = m from hrw]

/-! ## Characterisation of the index returned by `find_upper_bound` -/

/-- On a consistent (clean) structure with non-negative backing values and a
valid threshold, the query returns the least index of the binary-search-selected
row whose inclusive backing prefix reaches the threshold. -/
theorem fub_core_spec (b : Bucket) (val : ℚ)
    (hs : ConsistentSums b) (hc : ConsistentCum b)
    (h0 : 0 < val) (htop : val < b.cum b.ROWS) :
    ∃ m, fub_core b val = some m ∧
      queryRow b val * b.COLS ≤ m ∧
      m < b.ROWS * b.COLS ∧
      val ≤ preSum b.vec (m + 1) ∧
      (∀ i, queryRow b val * b.COLS ≤ i → i < m → preSum b.vec (i + 1) < val) ∧
      b.cum (queryRow b val) ≤ val ∧
      queryRow b val < b.ROWS := by
  have hCpos : 0 < b.COLS := by
    by_contra hC
    push_neg at hC
    have hC0 : b.COLS = 0 := by omega
    have hz : ∀ i, i < b.ROWS → b.sums i = (fun _ => (0 : ℚ)) i := by
      intro r hr
      rw [hs r hr, rowSum, hC0, chunkSum_zero]
    have hzero : b.cum b.ROWS = 0 := by
      rw [hc b.ROWS (le_refl _), preSum_congr b.sums (fun _ => 0) b.ROWS hz,
        preSum_const_zero]
    linarith
  have hqdef : queryRow b val = upperBoundIdx b.cum (b.ROWS + 1) val - 1 := rfl
  have hjle : upperBoundIdx b.cum (b.ROWS + 1) val < b.ROWS + 1 :=
    upperBoundIdx_lt b.cum (b.ROWS + 1) val b.ROWS (by omega) htop
  have hj1 : 1 ≤ upperBoundIdx b.cum (b.ROWS + 1) val := by
    by_contra hj0
    push_neg at hj0
    have hj0' : upperBoundIdx b.cum (b.ROWS + 1) val = 0 := by omega
    have hv0 := lt_cum_upperBoundIdx b.cum (b.ROWS + 1) val (by omega)
    rw [hj0', hc 0 (by omega), preSum_zero] at hv0
    linarith
  have hq1 : queryRow b val + 1 = upperBoundIdx b.cum (b.ROWS + 1) val := by omega
  have hqR : queryRow b val < b.ROWS := by omega
  have hcum_le : b.cum (queryRow b val) ≤ val := by
    have hnot := not_lt_of_lt_upperBoundIdx b.cum (b.ROWS + 1) val (queryRow b val) (by omega)
    exact not_lt.mp hnot
  have hcum_gt : val < b.cum (queryRow b val + 1) := by
    rw [hq1]
    exact lt_cum_upperBoundIdx b.cum (b.ROWS + 1) val hjle
  have hpre : ∀ k, k ≤ b.ROWS → b.cum k = preSum b.vec (k * b.COLS) := by
    intro k hk
    rw [hc k hk]
    exact preSum_vec_of_sums b.ROWS b.COLS b.sums b.vec hs k hk
  have hq_pre : b.cum (queryRow b val) = preSum b.vec (queryRow b val * b.COLS) :=
    hpre _ (by omega)
  have hj_pre : b.cum (queryRow b val + 1) = preSum b.vec ((queryRow b val + 1) * b.COLS) :=
    hpre _ (by omega)
  have hwit : queryRow b val * b.COLS ≤ (queryRow b val + 1) * b.COLS - 1 ∧
      val ≤ preSum b.vec ((queryRow b val + 1) * b.COLS - 1 + 1) := by
    constructor
    · rw [Nat.succ_mul]
      omega
    · rw [show (queryRow b val + 1) * b.COLS - 1 + 1 = (queryRow b val + 1) * b.COLS by
        rw [Nat.succ_mul]; omega]
      rw [← hj_pre]
      exact le_of_lt hcum_gt
  have hex : ∃ m, queryRow b val * b.COLS ≤ m ∧ val ≤ preSum b.vec (m + 1) :=
    ⟨(queryRow b val + 1) * b.COLS - 1, hwit.1, hwit.2⟩
  have hub : Nat.find hex ≤ (queryRow b val + 1) * b.COLS - 1 :=
    Nat.find_min' hex ⟨hwit.1, hwit.2⟩
  have hlt_window : Nat.find hex < queryRow b val * b.COLS + b.COLS := by
    rw [Nat.succ_mul] at hub
    omega
  have hspec := Nat.find_spec hex
  have hminim : ∀ i, queryRow b val * b.COLS ≤ i → i < Nat.find hex →
      preSum b.vec (i + 1) < val := by
    intro i hi1 hi2
    have hni := Nat.find_min hex hi2
    push_neg at hni
    exact hni hi1
  refine ⟨Nat.find hex, ?_, hspec.1, ?_, hspec.2, hminim, hcum_le, hqR⟩
  · show scanRow b.vec val b.COLS (queryRow b val * b.COLS) (b.cum (queryRow b val)) =
      some (Nat.find hex)
    exact scanRow_eq_some b.vec val b.COLS (queryRow b val * b.COLS) _ hq_pre
      (Nat.find hex) hspec.1 hlt_window hspec.2 hminim
  · have h1 : (queryRow b val + 1) * b.COLS ≤ b.ROWS * b.COLS :=
      Nat.mul_le_mul_right b.COLS (by omega)
    have hX : 0 < (queryRow b val + 1) * b.COLS := Nat.mul_pos (by omega) hCpos
    omega

/-! ## Idempotence of the refreshes -/

theorem update_cumsum_idem (b : Bucket) :
    update_cumsum (update_cumsum b) = update_cumsum b := by
  have hcum : (update_cumsum (update_cumsum b)).cum = (update_cumsum b).cum := by
    funext k
    rcases le_or_lt k b.ROWS with hk | hk
    · rw [update_cumsum_cum_of_le (update_cumsum b) k hk]
      rw [update_cumsum_cum_of_le b k hk]
      rfl
    · rw [update_cumsum_cum_of_gt (update_cumsum b) k hk]
  calc update_cumsum (update_cumsum b)
      = { update_cumsum b with cum := (update_cumsum (update_cumsum b)).cum } := rfl
    _ = { update_cumsum b with cum := (update_cumsum b).cum } := by rw [hcum]
    _ = update_cumsum b := rfl

theorem refresh_cumsum_clean_id (b : Bucket) (h : SentinelRange b) (hR : 0 < b.ROWS) :
    refresh_cumsum b = b := by
  obtain ⟨hmin, hmax⟩ := h
  have hcount1 : b.maxRow + 1 - b.minRow = 0 := by omega
  have hcount2 : b.ROWS - max b.minRow (b.maxRow + 1) = 0 := by omega
  have hcum : (refresh_cumsum b).cum = b.cum := by
    funext k
    show shiftLoop _ (cumLoop b.sums b.cum b.minRow (b.maxRow + 1 - b.minRow))
        (max b.minRow (b.maxRow + 1)) (b.ROWS - max b.minRow (b.maxRow + 1)) k = b.cum k
    rw [hcount1, hcount2]
    rfl
  calc refresh_cumsum b
      = { b with cum := (refresh_cumsum b).cum, minRow := b.ROWS, maxRow := 0 } := rfl
    _ = { b with cum := b.cum, minRow := b.ROWS, maxRow := 0 } := by rw [hcum]
    _ = { b with cum := b.cum, minRow := b.minRow, maxRow := b.maxRow } := by
        rw [hmin, hmax]
    _ = b := rfl

/-! ## Constructor field facts -/

theorem foldl_update_sum_ROWS (l : List ℕ) :
    ∀ b : Bucket, (l.foldl update_sum_at_row b).ROWS = b.ROWS := by
  induction l with
  | nil => intro b; rfl
  | cons r l ih => intro b; exact ih (update_sum_at_row b r)

theorem mkBucket_ROWS (R C : ℕ) (v : ℕ → ℚ) : (mkBucket R C v).ROWS = R := by
  show ((List.range R).foldl update_sum_at_row ⟨R, C, R, 0, v, fun _ => 0, fun _ => 0⟩).ROWS = R
  exact foldl_update_sum_ROWS (List.range R) _

theorem foldl_update_sum_vec (l : List ℕ) :
    ∀ b : Bucket, (l.foldl update_sum_at_row b).vec = b.vec := by
  induction l with
  | nil => intro b; rfl
  | cons r l ih => intro b; exact ih (update_sum_at_row b r)

theorem mkBucket_vec (R C : ℕ) (v : ℕ → ℚ) : (mkBucket R C v).vec = v := by
  show ((List.range R).foldl update_sum_at_row ⟨R, C, R, 0, v, fun _ => 0, fun _ => 0⟩).vec = v
  exact foldl_update_sum_vec (List.range R) _

theorem mkBucket_sentinel (R C : ℕ) (v : ℕ → ℚ) : SentinelRange (mkBucket R C v) := by
  constructor
  · show R = (mkBucket R C v).ROWS
    exact (mkBucket_ROWS R C v).symm
  · rfl

/-! ## The claims -/

/-- C2: starting from a clean structure, after any sequence of operations of the
caller cycle (backing writes and checked row updates, refreshes included), the
incremental refresh produces entry by entry the same cumulative array as the
full recomputation from the same row-sum state. -/
theorem c2_refresh_equivalence (b : Bucket) (ops : List Op) (h1 : ConsistentCum b)
    (h2 : SentinelRange b) (k : ℕ) (hk : k ≤ b.ROWS) :
    (refresh_cumsum (runOps b ops)).cum k = (update_cumsum (runOps b ops)).cum k := by
  have hInv : DirtyInv b := ⟨b.sums, h1, fun _ _ _ => rfl, Or.inl h2⟩
  have hInv' := dirtyInv_runOps b ops hInv
  have hR := runOps_ROWS b ops
  rw [refresh_cumsum_cum (runOps b ops) hInv' k (by omega),
    update_cumsum_cum_of_le (runOps b ops) k (by omega)]

theorem c2_refresh_equivalence_witness :
    (refresh_cumsum (runOps bTest [Op.writeVec 0 1, Op.updateRow 0])).cum 3 =
      (update_cumsum (runOps bTest [Op.writeVec 0 1, Op.updateRow 0])).cum 3 :=
  c2_refresh_equivalence bTest [Op.writeVec 0 1, Op.updateRow 0]
    (by
      intro k hk
      have hk3 : k ≤ 3 := hk
      interval_cases k <;>
        norm_num [bTest, mkBucket, update_cumsum, update_sum_at_row, cumLoop, rowSum,
          chunkSum, preSum, memOf, List.range_succ, Function.update])
    ⟨rfl, rfl⟩ 3 (by decide)

/-- C6: a second full refresh with no intervening row update changes nothing,
and an incremental refresh on an already-clean structure changes nothing. -/
theorem c6_refresh_idempotent (b b2 : Bucket) (h1 : SentinelRange b2) (h2 : 0 < b2.ROWS) :
    update_cumsum (update_cumsum b) = update_cumsum b ∧ refresh_cumsum b2 = b2 :=
  ⟨update_cumsum_idem b, refresh_cumsum_clean_id b2 h1 h2⟩

theorem c6_refresh_idempotent_witness :
    update_cumsum (update_cumsum bTest) = update_cumsum bTest ∧
      refresh_cumsum bTest = bTest :=
  c6_refresh_idempotent bTest bTest ⟨rfl, rfl⟩ (by decide)

/-- C7: fresh construction yields the sentinel dirty range `(ROWS, 0)`;
`update_sum_at_row 1` on a fresh structure makes the range `[1, 1]`; both
refreshes reset the range to the sentinel; and along every operation sequence a
non-sentinel range satisfies `minRow ≤ maxRow < ROWS`. -/
theorem c7_dirty_range_state_machine (ROWS COLS : ℕ) (v : ℕ → ℚ) (ops : List Op)
    (b : Bucket) (h : 1 < ROWS) :
    SentinelRange (mkBucket ROWS COLS v) ∧
    (update_sum_at_row (mkBucket ROWS COLS v) 1).minRow = 1 ∧
    (update_sum_at_row (mkBucket ROWS COLS v) 1).maxRow = 1 ∧
    SentinelRange (update_cumsum b) ∧
    SentinelRange (refresh_cumsum b) ∧
    DirtyRangeOK (runOps (mkBucket ROWS COLS v) ops) := by
  refine ⟨mkBucket_sentinel ROWS COLS v, ?_, ?_, ⟨rfl, rfl⟩, ⟨rfl, rfl⟩, ?_⟩
  · show min (mkBucket ROWS COLS v).minRow 1 = 1
    have hm : (mkBucket ROWS COLS v).minRow = ROWS := rfl
    rw [hm]
    omega
  · show max (mkBucket ROWS COLS v).maxRow 1 = 1
    have hm : (mkBucket ROWS COLS v).maxRow = 0 := rfl
    rw [hm]
    omega
  · exact dirtyRangeOK_runOps _ ops (Or.inl (mkBucket_sentinel ROWS COLS v))

theorem c7_dirty_range_state_machine_witness :
    SentinelRange (mkBucket 2 3 (fun _ => 0)) ∧
    (update_sum_at_row (mkBucket 2 3 (fun _ => 0)) 1).minRow = 1 ∧
    (update_sum_at_row (mkBucket 2 3 (fun _ => 0)) 1).maxRow = 1 ∧
    SentinelRange (update_cumsum bTest) ∧
    SentinelRange (refresh_cumsum bTest) ∧
    DirtyRangeOK (runOps (mkBucket 2 3 (fun _ => 0)) [Op.updateRow 0, Op.incRefresh]) :=
  c7_dirty_range_state_machine 2 3 (fun _ => 0) [Op.updateRow 0, Op.incRefresh] bTest
    (by omega)

/-- C8: for a valid row, `update_sum_at_row` recomputes exactly that row's sum
from the backing slice `[row*COLS, (row+1)*COLS)`, widens the affected range by
`min`/`max`, and leaves every other row sum, the cumulative array and the
backing memory untouched. -/
theorem c8_update_row_effects (b : Bucket) (row r : ℕ) (hrow : row < b.ROWS)
    (hr : r ≠ row) :
    (update_sum_at_row b row).sums row =
      Finset.sum (Finset.range b.COLS) (fun c => b.vec (row * b.COLS + c)) ∧
    (update_sum_at_row b row).sums r = b.sums r ∧
    (update_sum_at_row b row).minRow = min b.minRow row ∧
    (update_sum_at_row b row).maxRow = max b.maxRow row ∧
    (update_sum_at_row b row).cum = b.cum ∧
    (update_sum_at_row b row).vec = b.vec := by
  refine ⟨?_, ?_, rfl, rfl, rfl, rfl⟩
  · show Function.update b.sums row (rowSum b.vec b.COLS row) row = _
    rw [Function.update_same, rowSum, chunkSum_eq_finset]
  · show Function.update b.sums row (rowSum b.vec b.COLS row) r = b.sums r
    rw [Function.update_noteq hr]

theorem c8_update_row_effects_witness :
    (update_sum_at_row bTest 1).sums 1 =
      Finset.sum (Finset.range bTest.COLS) (fun c => bTest.vec (1 * bTest.COLS + c)) ∧
    (update_sum_at_row bTest 1).sums 2 = bTest.sums 2 ∧
    (update_sum_at_row bTest 1).minRow = min bTest.minRow 1 ∧
    (update_sum_at_row bTest 1).maxRow = max bTest.maxRow 1 ∧
    (update_sum_at_row bTest 1).cum = bTest.cum ∧
    (update_sum_at_row bTest 1).vec = bTest.vec :=
  c8_update_row_effects bTest 1 2 (by decide) (by decide)

/-- C10: whenever the checked query returns normally, the call leaves the row
sums, the cumulative array, the affected-row bounds and the backing memory
exactly as they were. -/
theorem c10_query_pure (b : Bucket) (val : ℚ) (r : Option ℕ)
    (h : (find_upper_bound b val).1 = Except.ok r) :
    (find_upper_bound b val).2.sums = b.sums ∧
    (find_upper_bound b val).2.cum = b.cum ∧
    (find_upper_bound b val).2.minRow = b.minRow ∧
    (find_upper_bound b val).2.maxRow = b.maxRow ∧
    (find_upper_bound b val).2.vec = b.vec := by
  have hb : (find_upper_bound b val).2 = b := by
    unfold find_upper_bound
    split_ifs <;> rfl
  rw [hb]
  exact ⟨rfl, rfl, rfl, rfl, rfl⟩

theorem c10_query_pure_witness :
    (find_upper_bound bTest 0.7).2.sums = bTest.sums ∧
    (find_upper_bound bTest 0.7).2.cum = bTest.cum ∧
    (find_upper_bound bTest 0.7).2.minRow = bTest.minRow ∧
    (find_upper_bound bTest 0.7).2.maxRow = bTest.maxRow ∧
    (find_upper_bound bTest 0.7).2.vec = bTest.vec :=
  c10_query_pure bTest 0.7 (some 3)
    (by
      norm_num [bTest, find_upper_bound, fub_core, queryRow, upperBoundIdx, scanRow,
        mkBucket, update_cumsum, update_sum_at_row, cumLoop, rowSum, chunkSum, preSum,
        memOf, List.range_succ, Function.update, List.findIdx_cons])

/-- C4: with checks enabled, an out-of-range row update raises the row-index
error, `find_upper_bound 0` and `find_upper_bound CumRowSums[ROWS]` raise the
two value-range errors, the three messages are pairwise distinguishable, and
every rejected call leaves the state exactly as it was. -/
theorem c4_checked_errors_atomic (b b2 b3 : Bucket) (row : ℕ) (h1 : b.ROWS ≤ row)
    (h2 : 0 < b3.cum b3.ROWS) :
    update_sum_at_row_checked b row = (Except.error rowErrMsg, b) ∧
    find_upper_bound b2 0 = (Except.error lowErrMsg, b2) ∧
    find_upper_bound b3 (b3.cum b3.ROWS) = (Except.error highErrMsg, b3) ∧
    rowErrMsg ≠ lowErrMsg ∧ rowErrMsg ≠ highErrMsg ∧ lowErrMsg ≠ highErrMsg := by
  refine ⟨?_, ?_, ?_, by decide, by decide, by decide⟩
  · unfold update_sum_at_row_checked
    rw [if_pos (by omega)]
  · unfold find_upper_bound
    rw [if_pos (by norm_num)]
  · unfold find_upper_bound
    rw [if_neg (fun hcon => hcon h2), if_pos (lt_irrefl _)]

theorem c4_checked_errors_atomic_witness :
    update_sum_at_row_checked bTest 7 = (Except.error rowErrMsg, bTest) ∧
    find_upper_bound bTest 0 = (Except.error lowErrMsg, bTest) ∧
    find_upper_bound bTest (bTest.cum bTest.ROWS) = (Except.error highErrMsg, bTest) ∧
    rowErrMsg ≠ lowErrMsg ∧ rowErrMsg ≠ highErrMsg ∧ lowErrMsg ≠ highErrMsg :=
  c4_checked_errors_atomic bTest bTest bTest 7 (by decide)
    (by
      norm_num [bTest, mkBucket, update_cumsum, update_sum_at_row, cumLoop, rowSum,
        chunkSum, preSum, memOf, List.range_succ, Function.update])

/-- A minimal clean instance whose threshold can hit a row boundary exactly:
`bucket<…> b(2, 1, {1, 1})`. -/
def bCx : Bucket := mkBucket 2 1 (memOf [1, 1] (fun _ => 0))

/-- C1 counterexample: on the clean, non-negative instance `bCx` the threshold
`1` equals the row-boundary cumulative value `CumRowSums[1]`; the query's
`std::upper_bound` (strictly greater) skips into row 1 and returns index `1`,
while the naive first-inclusive-prefix-≥-threshold search returns index `0`. -/
theorem c1_counterexample :
    ConsistentSums bCx ∧ ConsistentCum bCx ∧ NonnegBacking bCx ∧
    (0 : ℚ) < 1 ∧ (1 : ℚ) < bCx.cum bCx.ROWS ∧
    fub_core bCx 1 = some 1 ∧
    naiveFub bCx.vec (bCx.ROWS * bCx.COLS) 1 = some 0 ∧
    fub_core bCx 1 ≠ naiveFub bCx.vec (bCx.ROWS * bCx.COLS) 1 := by
  have e1 : fub_core bCx 1 = some 1 := by
    norm_num [bCx, fub_core, queryRow, upperBoundIdx, scanRow, mkBucket, update_cumsum,
      update_sum_at_row, cumLoop, rowSum, chunkSum, preSum, memOf, List.range_succ,
      Function.update, List.findIdx_cons]
  have e2 : naiveFub bCx.vec (bCx.ROWS * bCx.COLS) 1 = some 0 := by
    norm_num [bCx, naiveFub, preSum, mkBucket, update_cumsum, update_sum_at_row, cumLoop,
      rowSum, chunkSum, memOf, List.range_succ, Function.update, List.find?]
  refine ⟨?_, ?_, ?_, by norm_num, ?_, e1, e2, ?_⟩
  · intro r hr
    have hr2 : r < 2 := hr
    interval_cases r <;>
      norm_num [bCx, mkBucket, update_cumsum, update_sum_at_row, cumLoop, rowSum,
        chunkSum, preSum, memOf, List.range_succ, Function.update]
  · intro k hk
    have hk2 : k ≤ 2 := hk
    interval_cases k <;>
      norm_num [bCx, mkBucket, update_cumsum, update_sum_at_row, cumLoop, rowSum,
        chunkSum, preSum, memOf, List.range_succ, Function.update]
  · intro i hi
    have hi2 : i < 2 := hi
    interval_cases i <;>
      norm_num [bCx, mkBucket, update_cumsum, update_sum_at_row, cumLoop, rowSum,
        chunkSum, preSum, memOf, List.range_succ, Function.update]
  · norm_num [bCx, mkBucket, update_cumsum, update_sum_at_row, cumLoop, rowSum,
      chunkSum, preSum, memOf, List.range_succ, Function.update]
  · rw [e1, e2]
    simp

/-- C1 (amended): on a clean structure over a non-negative backing sequence,
for every valid threshold that does not exactly equal any row-boundary
cumulative value, `find_upper_bound` returns exactly the index found by the
naive full-prefix-sum first-index-≥-threshold search. -/
theorem c1_boundary_free_agrees_with_naive (b : Bucket) (val : ℚ)
    (hs : ConsistentSums b) (hc : ConsistentCum b) (hn : NonnegBacking b)
    (h0 : 0 < val) (htop : val < b.cum b.ROWS)
    (hb : ∀ k, k ≤ b.ROWS → b.cum k ≠ val) :
    fub_core b val = naiveFub b.vec (b.ROWS * b.COLS) val := by
  obtain ⟨m, hm_eq, hm_lb, hm_lt, hm_val, hm_min, hcum_le, hqR⟩ :=
    fub_core_spec b val hs hc h0 htop
  rw [hm_eq]
  have hcum_lt : b.cum (queryRow b val) < val :=
    lt_of_le_of_ne hcum_le (hb _ (by omega))
  have hq_pre : b.cum (queryRow b val) = preSum b.vec (queryRow b val * b.COLS) := by
    rw [hc _ (by omega)]
    exact preSum_vec_of_sums b.ROWS b.COLS b.sums b.vec hs _ (by omega)
  refine (find?_range_eq_some (b.ROWS * b.COLS) _ m hm_lt ?_ ?_).symm
  · simpa using hm_val
  · intro i hi
    simp only [decide_eq_false_iff_not, not_le]
    rcases Nat.lt_or_ge i (queryRow b val * b.COLS) with hlt | hge
    · have h1 : preSum b.vec (i + 1) ≤ preSum b.vec (queryRow b val * b.COLS) :=
        preSum_mono b.vec (b.ROWS * b.COLS) hn (i + 1) (queryRow b val * b.COLS)
          (by omega) (Nat.mul_le_mul_right b.COLS (by omega))
    
      linarith [hq_pre ▸ hcum_lt]
    · exact hm_min i hge hi

theorem c1_boundary_free_agrees_with_naive_witness :
    fub_core bCx (1 / 2) = naiveFub bCx.vec (bCx.ROWS * bCx.COLS) (1 / 2) :=
  c1_boundary_free_agrees_with_naive bCx (1 / 2)
    (by
      intro r hr
      have hr2 : r < 2 := hr
      interval_cases r <;>
        norm_num [bCx, mkBucket, update_cumsum, update_sum_at_row, cumLoop, rowSum,
          chunkSum, preSum, memOf, List.range_succ, Function.update])
    (by
      intro k hk
      have hk2 : k ≤ 2 := hk
      interval_cases k <;>
        norm_num [bCx, mkBucket, update_cumsum, update_sum_at_row, cumLoop, rowSum,
          chunkSum, preSum, memOf, List.range_succ, Function.update])
    (by
      intro i hi
      have hi2 : i < 2 := hi
      interval_cases i <;>
        norm_num [bCx, mkBucket, update_cumsum, update_sum_at_row, cumLoop, rowSum,
          chunkSum, preSum, memOf, List.range_succ, Function.update])
    (by norm_num)
    (by
      norm_num [bCx, mkBucket, update_cumsum, update_sum_at_row, cumLoop, rowSum,
        chunkSum, preSum, memOf, List.range_succ, Function.update])
    (by
      intro k hk
      have hk2 : k ≤ 2 := hk
      interval_cases k <;>
        norm_num [bCx, mkBucket, update_cumsum, update_sum_at_row, cumLoop, rowSum,
          chunkSum, preSum, memOf, List.range_succ, Function.update])

/-- C5: on a clean structure over a non-negative backing sequence, the query is
monotone in the threshold over the whole valid range (row-boundary thresholds
included). -/
theorem c5_query_monotone (b : Bucket) (t1 t2 : ℚ)
    (hs : ConsistentSums b) (hc : ConsistentCum b) (hn : NonnegBacking b)
    (h0 : 0 < t1) (h12 : t1 < t2) (htop : t2 < b.cum b.ROWS) :
    ∃ i1 i2, fub_core b t1 = some i1 ∧ fub_core b t2 = some i2 ∧ i1 ≤ i2 := by
  obtain ⟨m1, he1, hlb1, hm1_lt, hv1, hmin1, hle1, hq1⟩ :=
    fub_core_spec b t1 hs hc h0 (lt_trans h12 htop)
  obtain ⟨m2, he2, hlb2, hm2_lt, hv2, hmin2, hle2, hq2⟩ :=
    fub_core_spec b t2 hs hc (lt_trans h0 h12) htop
  refine ⟨m1, m2, he1, he2, ?_⟩
  by_contra hgt
  push_neg at hgt
  have hq : queryRow b t1 ≤ queryRow b t2 := by
    have hmono := upperBoundIdx_mono b.cum (b.ROWS + 1) t1 t2 (le_of_lt h12)
    show upperBoundIdx b.cum (b.ROWS + 1) t1 - 1 ≤ upperBoundIdx b.cum (b.ROWS + 1) t2 - 1
    omega
  have hql : queryRow b t1 * b.COLS ≤ m2 :=
    le_trans (Nat.mul_le_mul_right b.COLS hq) hlb2
  have hlt := hmin1 m2 hql hgt
  linarith

theorem c5_query_monotone_witness :
    ∃ i1 i2, fub_core bTest 0.2 = some i1 ∧ fub_core bTest 2.2 = some i2 ∧ i1 ≤ i2 :=
  c5_query_monotone bTest 0.2 2.2
    (by
      intro r hr
      have hr3 : r < 3 := hr
      interval_cases r <;>
        norm_num [bTest, mkBucket, update_cumsum, update_sum_at_row, cumLoop, rowSum,
          chunkSum, preSum, memOf, List.range_succ, Function.update])
    (by
      intro k hk
      have hk3 : k ≤ 3 := hk
      interval_cases k <;>
        norm_num [bTest, mkBucket, update_cumsum, update_sum_at_row, cumLoop, rowSum,
          chunkSum, preSum, memOf, List.range_succ, Function.update])
    (by
      intro i hi
      have hv : bTest.vec =
          memOf [0.1, 0.2, 0.3, 0.4, 0.5, 0.6, 0.7, 0.8, 0.9] (fun _ => 0) :=
        mkBucket_vec 3 3 _
      have hi9 : i < 9 := hi
      clear hi
      rw [hv]
      interval_cases i <;> norm_num [memOf])
    (by norm_num)
    (by norm_num)
    (by
      norm_num [bTest, mkBucket, update_cumsum, update_sum_at_row, cumLoop, rowSum,
        chunkSum, preSum, memOf, List.range_succ, Function.update])

/-- C9: the concrete scenario of `testA.cpp` in exact arithmetic: row sums,
cumulative sums, and the four checked queries. -/
theorem c9_concrete_scenario :
    bTest.sums 0 = 0.6 ∧ bTest.sums 1 = 1.5 ∧ bTest.sums 2 = 2.4 ∧
    bTest.cum 0 = 0 ∧ bTest.cum 1 = 0.6 ∧ bTest.cum 2 = 2.1 ∧ bTest.cum 3 = 4.5 ∧
    (find_upper_bound bTest 0.1).1 = Except.ok (some 0) ∧
    (find_upper_bound bTest 0.7).1 = Except.ok (some 3) ∧
    (find_upper_bound bTest 2.2).1 = Except.ok (some 6) ∧
    (find_upper_bound bTest 4.4).1 = Except.ok (some 8) := by
  norm_num [bTest, find_upper_bound, fub_core, queryRow, upperBoundIdx, scanRow, mkBucket,
    update_cumsum, update_sum_at_row, cumLoop, rowSum, chunkSum, preSum, memOf,
    List.range_succ, Function.update, List.findIdx_cons]

/-- The constructor run on a container of length 1 under a 2 × 1 grid, with two
different contents of the memory past the container's end. -/
def bPad : Bucket := mkBucket 2 1 (memOf [1] (fun _ => 5))

def bPadZero : Bucket := mkBucket 2 1 (memOf [1] (fun _ => 0))

/-- C3: when the backing container is shorter than `ROWS * COLS`, the
constructor's `update_sum_at_row` walks iterators past the container's end, so
`CumRowSums[ROWS]` takes whatever the out-of-bounds memory holds (here `5`,
giving `6`) instead of the zero-padded sum `1`; positions beyond the length are
*not* treated as value `0`. -/
theorem c3_padding_reads_out_of_bounds :
    bPad.cum 2 = 6 ∧ bPadZero.cum 2 = 1 ∧
    ([(1 : ℚ)] ++ List.replicate (2 * 1 - 1) 0).sum = 1 ∧
    bPad.cum 2 ≠ ([(1 : ℚ)] ++ List.replicate (2 * 1 - 1) 0).sum := by
  norm_num [bPad, bPadZero, mkBucket, update_cumsum, update_sum_at_row, cumLoop, rowSum,
    chunkSum, preSum, memOf, List.range_succ, Function.update, List.replicate]
